import Mathlib

/-!
Verification of the image-collection matching core (openMVG-based repository).

The development shallowly embeds:
* `ImageCollectionMatcher_Generic::Match` (Matcher_Regions_AllInMemory.cpp):
  grouping of requested pairs by reference view (`map_Pairs`), the per-group
  and per-comparison processing with skip semantics, the progress counter,
  and the output `PairwiseMatches` map (represented as a function from pairs
  to an optional correspondence list).
* `RegionsDatabaseMatcher::Match` (modelled from the spec; its body is not
  part of the provided sources): nearest / second-nearest query plus Lowe's
  ratio test on squared distances.
* `VoctreeLocalizer::Localize` (modelled from the spec; only the declaration
  is part of the provided sources): the Idle -> Retrieved -> Matched ->
  Resected state machine with typed failure results.
* The grid-filtering stage of `SIFT_openCV_ImageDescriber::Describe`
  (SIFT_openCV_describer.cpp).

Machine floating point is modelled by exact rational arithmetic; machine
integer indices by `Nat` (all the quantities involved are small and
non-negative in the source, so no wrap-around is reachable).
-/

/-- A view's `features::Regions` for the requested describer type:
an ordered descriptor set (each descriptor a numeric vector, modelled over
`ℚ`) together with its `Type_id` tag. -/
structure Regions where
  descriptors : List (List ℚ)
  typeId : ℕ
deriving DecidableEq

/-- `Regions::RegionCount()`: the number of descriptors. -/
def Regions.RegionCount (r : Regions) : ℕ :=
  r.descriptors.length

/-- Squared Euclidean distance between two descriptor vectors
(the distance used by the vector matcher strategies). -/
def sqDist (a b : List ℚ) : ℚ :=
  ((a.zip b).map (fun p => (p.1 - p.2) ^ 2)).sum

/-- Index and value of the minimum of a distance list; ties are broken by the
lowest index.  Returns `none` on the empty list. -/
def minIdxDist : List ℚ → Option (ℕ × ℚ)
  | [] => none
  | d :: ds =>
    match minIdxDist ds with
    | none => some (0, d)
    | some (i, m) => if d ≤ m then some (0, d) else some (i + 1, m)

namespace RegionsDatabaseMatcher

/-- Modelled from the spec: the Matcher Strategy `Query` contract
(§4.1) — `Query(queryDescriptor) -> (nearestIndex, nearestDist, secondDist)`
returns the nearest and second-nearest reference descriptor index and
(squared Euclidean) distances; the body of the concrete matchers
(`matcher_brute_force.hpp` etc.) is not among the provided sources.
`none` when the reference set has fewer than two descriptors. -/
def query (ref : List (List ℚ)) (q : List ℚ) : Option (ℕ × ℚ × ℚ) :=
  match minIdxDist (ref.map (fun r => sqDist r q)) with
  | none => none
  | some (i, nd) =>
    match minIdxDist ((ref.map (fun r => sqDist r q)).eraseIdx i) with
    | none => none
    | some p => some (i, nd, p.2)

/-- Modelled from the spec: `RegionsDatabaseMatcher::Match` (§4.2 step 4;
the body in `regions_matcher.hpp` is not among the provided sources) —
for every descriptor of the comparison view J, query the index built over
the reference view I for nearest / second-nearest distances and accept the
correspondence `(nearest, j-th query)` iff
`nearestDist < ratioThreshold^2 * secondDist` (Lowe's ratio test on squared
distances). -/
def Match (dr : ℚ) (regionsI regionsJ : Regions) : List (ℕ × ℕ) :=
  regionsJ.descriptors.enum.filterMap (fun jq =>
    match query regionsI.descriptors jq.2 with
    | none => none
    | some (i, nd, sd) => if nd < dr ^ 2 * sd then some (i, jq.1) else none)

end RegionsDatabaseMatcher

/-- `matching::EMatcherType` (the variants reachable from
`ImageCollectionMatcher_Generic`). -/
inductive EMatcherType
  | BRUTE_FORCE_L2
  | BRUTE_FORCE_HAMMING
  | ANN_L2
  | CASCADE_HASHING_L2
deriving DecidableEq, BEq

/-- `const bool b_multithreaded_pair_search = (_matcherType == CASCADE_HASHING_L2);`
— the flag guarding `#pragma omp parallel for ... if(b_multithreaded_pair_search)`
on the inner comparison loop. -/
def b_multithreaded_pair_search (matcherType : EMatcherType) : Bool :=
  matcherType == EMatcherType.CASCADE_HASHING_L2

/-- The state threaded through `ImageCollectionMatcher_Generic::Match`:
the progress counter `my_progress_bar`, the output map
`map_PutativesMatches` (as a function from an image pair to the optional
stored correspondence list for the requested describer type), and two event
logs: `attempted` records every pair for which `matcher.Match` was invoked,
`builds` records every reference view for which a
`RegionsDatabaseMatcher` index was constructed. -/
structure MatchState where
  progress : ℕ
  map : ℕ × ℕ → Option (List (ℕ × ℕ))
  attempted : List (ℕ × ℕ)
  builds : List ℕ

/-- The initial state of one `Match` call. -/
def initialState : MatchState :=
  { progress := 0, map := fun _ => none, attempted := [], builds := [] }

/-- `map_Pairs`: the pairs sorted/grouped by their first index
(`std::map<size_t, std::vector<size_t>>` filled by
`map_Pairs[iter->first].push_back(iter->second)`). -/
def map_Pairs (pairs : List (ℕ × ℕ)) : List (ℕ × List ℕ) :=
  (pairs.map Prod.fst).dedup.map
    (fun I => (I, (pairs.filter (fun p => p.1 == I)).map Prod.snd))

/-- One iteration of the inner comparison loop of
`ImageCollectionMatcher_Generic::Match` (body of
`for (int j = 0; j < (int)indexToCompare.size(); ++j)`): fetch J's regions,
skip when empty or of a different `Type_id` (advancing progress), otherwise
run `matcher.Match` and store the putative matches iff non-empty.
`mi` abstracts the configured matcher strategy's per-pair matching function
(`dr` is `_f_dist_ratio`). -/
def processOne (mi : ℚ → Regions → Regions → List (ℕ × ℕ)) (dr : ℚ)
    (rpv : ℕ → Regions) (I : ℕ) (st : MatchState) (J : ℕ) : MatchState :=
  if (rpv J).RegionCount = 0 ∨ (rpv I).typeId ≠ (rpv J).typeId then
    { st with progress := st.progress + 1 }
  else
    { st with
      progress := st.progress + 1
      attempted := st.attempted ++ [(I, J)]
      map := if (mi dr (rpv I) (rpv J)).isEmpty then st.map
             else Function.update st.map (I, J) (some (mi dr (rpv I) (rpv J))) }

/-- One iteration of the outer loop of `ImageCollectionMatcher_Generic::Match`
over one `map_Pairs` group `(I, indexToCompare)`: if I's regions are empty,
advance progress by the whole group size and continue; otherwise construct
the `RegionsDatabaseMatcher` (logged in `builds`) and run the inner loop. -/
def processGroup (mi : ℚ → Regions → Regions → List (ℕ × ℕ)) (dr : ℚ)
    (rpv : ℕ → Regions) (st : MatchState) (g : ℕ × List ℕ) : MatchState :=
  if (rpv g.1).RegionCount = 0 then
    { st with progress := st.progress + g.2.length }
  else
    g.2.foldl (processOne mi dr rpv g.1) { st with builds := st.builds ++ [g.1] }

/-- The outer loop of `ImageCollectionMatcher_Generic::Match` run on an
explicit list of groups (used to express thread schedules of the inner
loop as permutations of each group's comparison list). -/
def MatchGroups (mi : ℚ → Regions → Regions → List (ℕ × ℕ)) (dr : ℚ)
    (rpv : ℕ → Regions) (groups : List (ℕ × List ℕ)) : MatchState :=
  groups.foldl (processGroup mi dr rpv) initialState

/-- `ImageCollectionMatcher_Generic::Match`: group the requested pairs with
`map_Pairs`, then process every group.  `rpv` models
`regionsPerView.getRegions(·, descType)` for the requested describer type. -/
def ImageCollectionMatcher_Generic.Match
    (mi : ℚ → Regions → Regions → List (ℕ × ℕ)) (dr : ℚ)
    (rpv : ℕ → Regions) (pairs : List (ℕ × ℕ)) : MatchState :=
  MatchGroups mi dr rpv (map_Pairs pairs)

/-- One step of the naive per-pair algorithm: treat the single pair `p` as
its own group of size one (skip it when the reference view is empty,
otherwise build a fresh matcher and run the per-comparison logic). -/
def naiveStep (mi : ℚ → Regions → Regions → List (ℕ × ℕ)) (dr : ℚ)
    (rpv : ℕ → Regions) (st : MatchState) (p : ℕ × ℕ) : MatchState :=
  if (rpv p.1).RegionCount = 0 then { st with progress := st.progress + 1 }
  else processOne mi dr rpv p.1 { st with builds := st.builds ++ [p.1] } p.2

/-- The naive per-pair algorithm, following the spec's description of what
the grouped execution optimizes (§4.2 step 1): build a fresh matcher for
every individual requested pair and apply the same skip / store logic. -/
def Match_naive (mi : ℚ → Regions → Regions → List (ℕ × ℕ)) (dr : ℚ)
    (rpv : ℕ → Regions) (pairs : List (ℕ × ℕ)) : MatchState :=
  pairs.foldl (naiveStep mi dr rpv) initialState

/-- The result the per-pair logic of `Match` produces for one pair:
`none` when the pair is skipped (empty regions on either side or describer
type mismatch) or when the matcher returns no correspondence; the stored
list otherwise. -/
def perPair (mi : ℚ → Regions → Regions → List (ℕ × ℕ)) (dr : ℚ)
    (rpv : ℕ → Regions) (k : ℕ × ℕ) : Option (List (ℕ × ℕ)) :=
  if (rpv k.1).RegionCount = 0 ∨ (rpv k.2).RegionCount = 0 ∨
      (rpv k.1).typeId ≠ (rpv k.2).typeId then none
  else if (mi dr (rpv k.1) (rpv k.2)).isEmpty then none
  else some (mi dr (rpv k.1) (rpv k.2))

/-- The condition under which `Match` invokes `matcher.Match` on a pair:
both views have descriptors of the requested type and their `Type_id`s
agree. -/
def attemptCond (rpv : ℕ → Regions) (k : ℕ × ℕ) : Prop :=
  (rpv k.1).RegionCount ≠ 0 ∧ (rpv k.2).RegionCount ≠ 0 ∧
    (rpv k.1).typeId = (rpv k.2).typeId

/-- Two group lists describe the same grouped workload up to the order in
which the inner (conceptually parallel) comparison loop visits each group's
comparison views. -/
def GroupsPerm : List (ℕ × List ℕ) → List (ℕ × List ℕ) → Prop :=
  List.Forall₂ (fun g g2 => g.1 = g2.1 ∧ g.2.Perm g2.2)

/-- Outcome of one localization request (§4.5): either a pose with the
accepted inlier correspondences, or a typed failure reason. -/
inductive LocResult (P : Type)
  | localized (pose : P) (inliers : List (ℕ × ℕ))
  | failed (reason : String)
deriving DecidableEq

/-- Modelled from the spec: the Retrieved -> Matched accumulation (§4.5
step 2) — visit the retrieval candidates in score order, accumulating the
2D-3D correspondences each candidate contributes, stopping early once the
configured minimum correspondence count is reached. -/
def accumCorrs (corrOf : ℕ → List (ℕ × ℕ)) (minCount : ℕ) :
    List ℕ → List (ℕ × ℕ) → List (ℕ × ℕ)
  | [], acc => acc
  | c :: cs, acc =>
    if minCount ≤ acc.length then acc
    else accumCorrs corrOf minCount cs (acc ++ corrOf c)

/-- Modelled from the spec: `VoctreeLocalizer::Localize` (§4.5; only the
declaration in the header is among the provided sources) — the
`Idle -> Retrieved -> Matched -> Resected -> {Localized, Failed}` state
machine.  `candidates` is the retrieval result, `corrOf` the per-candidate
2D-3D correspondences produced by the single-pair matching logic, `resect`
the external Resection solver (returning a failure reason rather than
throwing).  The boolean is the return value of `Localize`; every expected
failure mode yields `false` with a diagnostic, never an exception. -/
def VoctreeLocalizer.Localize {P : Type} (candidates : List ℕ)
    (corrOf : ℕ → List (ℕ × ℕ)) (minCorr : ℕ)
    (resect : List (ℕ × ℕ) → Except String (P × List (ℕ × ℕ))) :
    Bool × LocResult P :=
  if candidates.isEmpty then (false, .failed "no retrieval candidates")
  else if (accumCorrs corrOf minCorr candidates []).length < minCorr then
    (false, .failed "insufficient correspondences")
  else
    match resect (accumCorrs corrOf minCorr candidates []) with
    | .error r => (false, .failed r)
    | .ok pi => (true, .localized pi.1 pi.2)

/-- The cell-index computation of the grid-filtering stage of
`SIFT_openCV_ImageDescriber::Describe`:
`min(size_t(coord / (extent / double(gridSize))), gridSize)`
(for `cellX`, `coord = keypoint.pt.x` and `extent = image.Width()`;
for `cellY`, `coord = keypoint.pt.y` and `extent = image.Height()`).
Floating point is modelled by exact rational arithmetic; the `size_t` cast
of a non-negative value is `Nat.floor`. -/
def cellIndex (coord : ℚ) (extent : ℕ) (gridSize : ℕ) : ℕ :=
  min (Nat.floor (coord / ((extent : ℚ) / (gridSize : ℚ)))) gridSize

/-- A detected `cv::KeyPoint` (only the coordinates matter to the grid
filtering). -/
structure SIFTKeyPoint where
  x : ℚ
  y : ℚ
deriving DecidableEq

/-- State of the grid-filtering loop of
`SIFT_openCV_ImageDescriber::Describe`: the `countFeatPerCell` counter
matrix (as a function from a cell-index pair to its count) and the
`filtered_keypoints` / `rejected_keypoints` lists. -/
structure GridState where
  countFeatPerCell : ℕ × ℕ → ℕ
  filtered_keypoints : List SIFTKeyPoint
  rejected_keypoints : List SIFTKeyPoint

/-- One iteration of `for(const cv::KeyPoint& keypoint: v_keypoints)`:
compute the keypoint's cell, read and increment the cell counter, and route
the keypoint to `filtered_keypoints` when the previous count is below
`keypointsPerCell`, otherwise to `rejected_keypoints`. -/
def gridStep (gridSize w h kpc : ℕ) (st : GridState) (kp : SIFTKeyPoint) :
    GridState :=
  { countFeatPerCell := Function.update st.countFeatPerCell
      (cellIndex kp.x w gridSize, cellIndex kp.y h gridSize)
      (st.countFeatPerCell (cellIndex kp.x w gridSize, cellIndex kp.y h gridSize) + 1)
    filtered_keypoints :=
      if st.countFeatPerCell (cellIndex kp.x w gridSize, cellIndex kp.y h gridSize) < kpc
      then st.filtered_keypoints ++ [kp] else st.filtered_keypoints
    rejected_keypoints :=
      if st.countFeatPerCell (cellIndex kp.x w gridSize, cellIndex kp.y h gridSize) < kpc
      then st.rejected_keypoints else st.rejected_keypoints ++ [kp] }

/-- The refill step after the per-cell loop: when fewer than
`maxTotalKeypoints` keypoints survived, append the first
`min(rejected.size(), maxTotalKeypoints - filtered.size())` rejected
keypoints. -/
def gridFilterRefill (maxTotal : ℕ) (final : GridState) : List SIFTKeyPoint :=
  if final.filtered_keypoints.length < maxTotal then
    final.filtered_keypoints ++
      final.rejected_keypoints.take
        (min final.rejected_keypoints.length (maxTotal - final.filtered_keypoints.length))
  else final.filtered_keypoints

/-- The initial state of the grid-filtering loop: a zeroed counter matrix and
empty `filtered_keypoints` / `rejected_keypoints`. -/
def gridInit : GridState :=
  { countFeatPerCell := fun _ => 0, filtered_keypoints := [], rejected_keypoints := [] }

/-- The grid-filtering body executed when `v_keypoints.size() >
maxTotalKeypoints`: the per-cell filtering loop with
`keypointsPerCell = maxTotalKeypoints / countFeatPerCell.total()`
(`total() = gridSize * gridSize`), followed by the refill step. -/
def gridFilter (gridSize maxTotal w h : ℕ) (kps : List SIFTKeyPoint) :
    List SIFTKeyPoint :=
  gridFilterRefill maxTotal
    (kps.foldl (gridStep gridSize w h (maxTotal / (gridSize * gridSize))) gridInit)

/-- The grid-filtering stage of `SIFT_openCV_ImageDescriber::Describe`
applied to the detected (size-sorted) keypoint list: active only when both
`gridSize` and `maxTotalKeypoints` are non-zero and more keypoints were
detected than `maxTotalKeypoints`. -/
def Describe_gridFiltering (gridSize maxTotal w h : ℕ)
    (kps : List SIFTKeyPoint) : List SIFTKeyPoint :=
  if gridSize ≠ 0 ∧ maxTotal ≠ 0 ∧ maxTotal < kps.length then
    gridFilter gridSize maxTotal w h kps
  else kps

theorem processOne_progress (mi : ℚ → Regions → Regions → List (ℕ × ℕ)) (dr : ℚ)
    (rpv : ℕ → Regions) (I : ℕ) (st : MatchState) (J : ℕ) :
    (processOne mi dr rpv I st J).progress = st.progress + 1 := by
  unfold processOne
  split
  · rfl
  · rfl

theorem processOne_attempted_eq (mi : ℚ → Regions → Regions → List (ℕ × ℕ)) (dr : ℚ)
    (rpv : ℕ → Regions) (I : ℕ) (st : MatchState) (J : ℕ) :
    (processOne mi dr rpv I st J).attempted =
      if (rpv J).RegionCount = 0 ∨ (rpv I).typeId ≠ (rpv J).typeId
      then st.attempted else st.attempted ++ [(I, J)] := by
  unfold processOne
  split
  · simp_all
  · simp_all

theorem processOne_builds (mi : ℚ → Regions → Regions → List (ℕ × ℕ)) (dr : ℚ)
    (rpv : ℕ → Regions) (I : ℕ) (st : MatchState) (J : ℕ) :
    (processOne mi dr rpv I st J).builds = st.builds := by
  unfold processOne
  split
  · rfl
  · rfl

theorem processOne_map_frame (mi : ℚ → Regions → Regions → List (ℕ × ℕ)) (dr : ℚ)
    (rpv : ℕ → Regions) (I : ℕ) (st : MatchState) (J : ℕ) (k : ℕ × ℕ)
    (hk : k ≠ (I, J)) :
    (processOne mi dr rpv I st J).map k = st.map k := by
  unfold processOne
  split
  · rfl
  · dsimp only
    split
    · rfl
    · exact Function.update_noteq hk _ _

theorem processOne_map_write (mi : ℚ → Regions → Regions → List (ℕ × ℕ)) (dr : ℚ)
    (rpv : ℕ → Regions) (I : ℕ) (st : MatchState) (J : ℕ)
    (hI : (rpv I).RegionCount ≠ 0) (hnone : st.map (I, J) = none) :
    (processOne mi dr rpv I st J).map (I, J) = perPair mi dr rpv (I, J) := by
  by_cases h1 : (rpv J).RegionCount = 0
  · simp [processOne, perPair, h1, hnone]
  · by_cases h2 : (rpv I).typeId = (rpv J).typeId
    · by_cases h3 : (mi dr (rpv I) (rpv J)).isEmpty
      · simp [processOne, perPair, h1, h2, h3, hI, hnone]
      · simp [processOne, perPair, h1, h2, h3, hI, Function.update_same]
    · simp [processOne, perPair, h1, h2, hnone, hI]

theorem foldOne_progress (mi : ℚ → Regions → Regions → List (ℕ × ℕ)) (dr : ℚ)
    (rpv : ℕ → Regions) (I : ℕ) (Js : List ℕ) (st : MatchState) :
    (Js.foldl (processOne mi dr rpv I) st).progress = st.progress + Js.length := by
  induction Js generalizing st with
  | nil => simp
  | cons J Js2 ih =>
    rw [List.foldl_cons, ih, processOne_progress]
    simp; omega

theorem foldOne_builds (mi : ℚ → Regions → Regions → List (ℕ × ℕ)) (dr : ℚ)
    (rpv : ℕ → Regions) (I : ℕ) (Js : List ℕ) (st : MatchState) :
    (Js.foldl (processOne mi dr rpv I) st).builds = st.builds := by
  induction Js generalizing st with
  | nil => rfl
  | cons J Js2 ih =>
    rw [List.foldl_cons, ih, processOne_builds]

theorem foldOne_attempted (mi : ℚ → Regions → Regions → List (ℕ × ℕ)) (dr : ℚ)
    (rpv : ℕ → Regions) (I : ℕ) (Js : List ℕ) (st : MatchState) (k : ℕ × ℕ)
    (hI : (rpv I).RegionCount ≠ 0) :
    (k ∈ (Js.foldl (processOne mi dr rpv I) st).attempted ↔
      k ∈ st.attempted ∨ (k.1 = I ∧ k.2 ∈ Js ∧ attemptCond rpv k)) := by
  induction Js generalizing st with
  | nil => simp
  | cons J Js2 ih =>
    rw [List.foldl_cons, ih, processOne_attempted_eq]
    by_cases hcond : (rpv J).RegionCount = 0 ∨ (rpv I).typeId ≠ (rpv J).typeId
    · rw [if_pos hcond]
      constructor
      · rintro (hmem | ⟨h1, h2, h3⟩)
        · exact Or.inl hmem
        · exact Or.inr ⟨h1, List.mem_cons_of_mem _ h2, h3⟩
      · rintro (hmem | ⟨h1, h2, h3⟩)
        · exact Or.inl hmem
        · rcases List.mem_cons.mp h2 with h2 | h2
          · exfalso
            obtain ⟨k1, k2⟩ := k
            dsimp at h1 h2
            subst h1; subst h2
            rcases hcond with hc | hc
            · exact h3.2.1 hc
            · exact hc h3.2.2
          · exact Or.inr ⟨h1, h2, h3⟩
    · rw [if_neg hcond]
      push_neg at hcond
      constructor
      · rintro (hmem | ⟨h1, h2, h3⟩)
        · rcases List.mem_append.mp hmem with hmem | hmem
          · exact Or.inl hmem
          · rcases List.mem_singleton.mp hmem with rfl
            exact Or.inr ⟨rfl, List.mem_cons_self _ _, hI, hcond.1, hcond.2⟩
        · exact Or.inr ⟨h1, List.mem_cons_of_mem _ h2, h3⟩
      · rintro (hmem | ⟨h1, h2, h3⟩)
        · exact Or.inl (List.mem_append_left _ hmem)
        · rcases List.mem_cons.mp h2 with h2 | h2
          · left
            refine List.mem_append_right _ ?_
            obtain ⟨k1, k2⟩ := k
            dsimp at h1 h2
            subst h1; subst h2
            exact List.mem_singleton.mpr rfl
          · exact Or.inr ⟨h1, h2, h3⟩

theorem foldOne_map (mi : ℚ → Regions → Regions → List (ℕ × ℕ)) (dr : ℚ)
    (rpv : ℕ → Regions) (I : ℕ) (Js : List ℕ) (st : MatchState) (k : ℕ × ℕ)
    (hI : (rpv I).RegionCount ≠ 0) (hJs : Js.Nodup)
    (hnone : k.1 = I → k.2 ∈ Js → st.map k = none) :
    (Js.foldl (processOne mi dr rpv I) st).map k =
      if k.1 = I ∧ k.2 ∈ Js then perPair mi dr rpv k else st.map k := by
  induction Js generalizing st with
  | nil => simp
  | cons J Js2 ih =>
    have hJ : J ∉ Js2 := (List.nodup_cons.mp hJs).1
    have hJs2 : Js2.Nodup := (List.nodup_cons.mp hJs).2
    rw [List.foldl_cons]
    rw [ih _ hJs2 ?hn]
    case hn =>
      intro h1 h2
      have hne : k ≠ (I, J) := by
        intro he
        rw [he] at h2
        exact hJ h2
      rw [processOne_map_frame _ _ _ _ _ _ _ hne]
      exact hnone h1 (List.mem_cons_of_mem _ h2)
    by_cases hA : k.1 = I ∧ k.2 ∈ Js2
    · rw [if_pos hA, if_pos ⟨hA.1, List.mem_cons_of_mem _ hA.2⟩]
    · rw [if_neg hA]
      by_cases hB : k = (I, J)
      · obtain ⟨k1, k2⟩ := k
        simp only [Prod.mk.injEq] at hB
        obtain ⟨rfl, rfl⟩ := hB
        rw [if_pos ⟨rfl, List.mem_cons_self _ _⟩]
        exact processOne_map_write _ _ _ _ _ _ hI
          (hnone rfl (List.mem_cons_self _ _))
      · have hC : ¬(k.1 = I ∧ k.2 ∈ J :: Js2) := by
          rintro ⟨h1, h2⟩
          rcases List.mem_cons.mp h2 with h2 | h2
          · exact hB (Prod.ext h1 h2)
          · exact hA ⟨h1, h2⟩
        rw [if_neg hC]
        exact processOne_map_frame _ _ _ _ _ _ _ hB

theorem foldOne_map_frame (mi : ℚ → Regions → Regions → List (ℕ × ℕ)) (dr : ℚ)
    (rpv : ℕ → Regions) (I : ℕ) (Js : List ℕ) (st : MatchState) (k : ℕ × ℕ)
    (hk : k.1 ≠ I) :
    (Js.foldl (processOne mi dr rpv I) st).map k = st.map k := by
  induction Js generalizing st with
  | nil => rfl
  | cons J Js2 ih =>
    rw [List.foldl_cons, ih, processOne_map_frame]
    intro he
    rw [he] at hk
    exact hk rfl

theorem processGroup_progress (mi : ℚ → Regions → Regions → List (ℕ × ℕ)) (dr : ℚ)
    (rpv : ℕ → Regions) (st : MatchState) (g : ℕ × List ℕ) :
    (processGroup mi dr rpv st g).progress = st.progress + g.2.length := by
  unfold processGroup
  split
  · rfl
  · rw [foldOne_progress]

theorem processGroup_builds (mi : ℚ → Regions → Regions → List (ℕ × ℕ)) (dr : ℚ)
    (rpv : ℕ → Regions) (st : MatchState) (g : ℕ × List ℕ) :
    (processGroup mi dr rpv st g).builds =
      st.builds ++ (if (rpv g.1).RegionCount = 0 then [] else [g.1]) := by
  unfold processGroup
  split
  · simp
  · rw [foldOne_builds]

theorem processGroup_map_frame (mi : ℚ → Regions → Regions → List (ℕ × ℕ)) (dr : ℚ)
    (rpv : ℕ → Regions) (st : MatchState) (g : ℕ × List ℕ) (k : ℕ × ℕ)
    (hk : k.1 ≠ g.1) :
    (processGroup mi dr rpv st g).map k = st.map k := by
  unfold processGroup
  split
  · rfl
  · rw [foldOne_map_frame _ _ _ _ _ _ _ hk]

theorem processGroup_map (mi : ℚ → Regions → Regions → List (ℕ × ℕ)) (dr : ℚ)
    (rpv : ℕ → Regions) (st : MatchState) (g : ℕ × List ℕ) (k : ℕ × ℕ)
    (hJs : g.2.Nodup)
    (hnone : k.1 = g.1 → k.2 ∈ g.2 → st.map k = none) :
    (processGroup mi dr rpv st g).map k =
      if k.1 = g.1 ∧ k.2 ∈ g.2 then perPair mi dr rpv k else st.map k := by
  unfold processGroup
  split
  · rename_i h0
    by_cases hA : k.1 = g.1 ∧ k.2 ∈ g.2
    · rw [if_pos hA]
      show st.map k = _
      rw [hnone hA.1 hA.2]
      simp [perPair, hA.1, h0]
    · rw [if_neg hA]
  · rename_i h0
    rw [foldOne_map mi dr rpv g.1 g.2 { st with builds := st.builds ++ [g.1] } k h0 hJs hnone]

theorem processGroup_attempted (mi : ℚ → Regions → Regions → List (ℕ × ℕ)) (dr : ℚ)
    (rpv : ℕ → Regions) (st : MatchState) (g : ℕ × List ℕ) (k : ℕ × ℕ) :
    (k ∈ (processGroup mi dr rpv st g).attempted ↔
      k ∈ st.attempted ∨ (k.1 = g.1 ∧ k.2 ∈ g.2 ∧ attemptCond rpv k)) := by
  unfold processGroup
  split
  · rename_i h0
    constructor
    · exact Or.inl
    · rintro (h | ⟨h1, h2, h3⟩)
      · exact h
      · exact absurd (h1 ▸ h3.1) (not_not_intro h0)
  · rename_i h0
    rw [foldOne_attempted _ _ _ _ _ _ _ h0]

theorem foldGroups_progress (mi : ℚ → Regions → Regions → List (ℕ × ℕ)) (dr : ℚ)
    (rpv : ℕ → Regions) (groups : List (ℕ × List ℕ)) (st : MatchState) :
    (groups.foldl (processGroup mi dr rpv) st).progress =
      st.progress + (groups.map (fun g => g.2.length)).sum := by
  induction groups generalizing st with
  | nil => simp
  | cons g gs ih =>
    rw [List.foldl_cons, ih, processGroup_progress]
    simp
    omega

theorem foldGroups_builds (mi : ℚ → Regions → Regions → List (ℕ × ℕ)) (dr : ℚ)
    (rpv : ℕ → Regions) (groups : List (ℕ × List ℕ)) (st : MatchState) :
    (groups.foldl (processGroup mi dr rpv) st).builds =
      st.builds ++ (groups.map Prod.fst).filter
        (fun I => !((rpv I).RegionCount == 0)) := by
  induction groups generalizing st with
  | nil => simp
  | cons g gs ih =>
    rw [List.foldl_cons, ih, processGroup_builds]
    rw [List.map_cons, List.filter_cons]
    by_cases h0 : (rpv g.1).RegionCount = 0
    · simp [h0]
    · simp [h0]

theorem foldGroups_attempted (mi : ℚ → Regions → Regions → List (ℕ × ℕ)) (dr : ℚ)
    (rpv : ℕ → Regions) (groups : List (ℕ × List ℕ)) (st : MatchState) (k : ℕ × ℕ) :
    (k ∈ (groups.foldl (processGroup mi dr rpv) st).attempted ↔
      k ∈ st.attempted ∨
        ∃ g ∈ groups, k.1 = g.1 ∧ k.2 ∈ g.2 ∧ attemptCond rpv k) := by
  induction groups generalizing st with
  | nil => simp
  | cons g gs ih =>
    rw [List.foldl_cons, ih, processGroup_attempted]
    constructor
    · rintro ((h | ⟨h1, h2, h3⟩) | ⟨g2, hg2, h⟩)
      · exact Or.inl h
      · exact Or.inr ⟨g, List.mem_cons_self _ _, h1, h2, h3⟩
      · exact Or.inr ⟨g2, List.mem_cons_of_mem _ hg2, h⟩
    · rintro (h | ⟨g2, hg2, h⟩)
      · exact Or.inl (Or.inl h)
      · rcases List.mem_cons.mp hg2 with rfl | hg2
        · exact Or.inl (Or.inr h)
        · exact Or.inr ⟨g2, hg2, h⟩

theorem foldGroups_map (mi : ℚ → Regions → Regions → List (ℕ × ℕ)) (dr : ℚ)
    (rpv : ℕ → Regions) (groups : List (ℕ × List ℕ)) (st : MatchState) (k : ℕ × ℕ)
    (hkeys : (groups.map Prod.fst).Nodup)
    (hJs : ∀ g ∈ groups, (g.2 : List ℕ).Nodup)
    (hst : ∀ g ∈ groups, k.1 = g.1 → st.map k = none) :
    ((∃ g ∈ groups, k.1 = g.1 ∧ k.2 ∈ g.2) →
        (groups.foldl (processGroup mi dr rpv) st).map k = perPair mi dr rpv k) ∧
      (¬(∃ g ∈ groups, k.1 = g.1 ∧ k.2 ∈ g.2) →
        (groups.foldl (processGroup mi dr rpv) st).map k = st.map k) := by
  induction groups generalizing st with
  | nil =>
    constructor
    · rintro ⟨g, hg, _⟩
      cases hg
    · intro _
      rfl
  | cons g gs ih =>
    obtain ⟨hk1, hkeys2⟩ : g.1 ∉ gs.map Prod.fst ∧ (gs.map Prod.fst).Nodup := by
      rw [List.map_cons] at hkeys
      exact List.nodup_cons.mp hkeys
    have hJg : g.2.Nodup := hJs g (List.mem_cons_self _ _)
    have hJs2 : ∀ g2 ∈ gs, (g2.2 : List ℕ).Nodup :=
      fun g2 h => hJs g2 (List.mem_cons_of_mem _ h)
    rw [List.foldl_cons]
    have hst2 : ∀ g2 ∈ gs, k.1 = g2.1 → (processGroup mi dr rpv st g).map k = none := by
      intro g2 hg2 hk
      have hne : k.1 ≠ g.1 := by
        intro he
        apply hk1
        rw [← he, hk]
        exact List.mem_map_of_mem Prod.fst hg2
      rw [processGroup_map_frame _ _ _ _ _ _ hne]
      exact hst g2 (List.mem_cons_of_mem _ hg2) hk
    have IH := ih _ hkeys2 hJs2 hst2
    constructor
    · rintro ⟨g2, hg2, h1, h2⟩
      rcases List.mem_cons.mp hg2 with rfl | hg2
      · have hgs : ¬(∃ g3 ∈ gs, k.1 = g3.1 ∧ k.2 ∈ g3.2) := by
          rintro ⟨g3, hg3, e1, _⟩
          apply hk1
          rw [← h1, e1]
          exact List.mem_map_of_mem Prod.fst hg3
        rw [IH.2 hgs]
        rw [processGroup_map _ _ _ _ _ _ hJg
          (fun ha hb => hst g2 (List.mem_cons_self _ _) ha)]
        rw [if_pos ⟨h1, h2⟩]
      · exact IH.1 ⟨g2, hg2, h1, h2⟩
    · intro hnc
      have hgs : ¬(∃ g3 ∈ gs, k.1 = g3.1 ∧ k.2 ∈ g3.2) := by
        rintro ⟨g3, hg3, e⟩
        exact hnc ⟨g3, List.mem_cons_of_mem _ hg3, e⟩
      rw [IH.2 hgs]
      have hng : ¬(k.1 = g.1 ∧ k.2 ∈ g.2) :=
        fun he => hnc ⟨g, List.mem_cons_self _ _, he⟩
      rw [processGroup_map _ _ _ _ _ _ hJg
        (fun ha hb => hst g (List.mem_cons_self _ _) ha)]
      rw [if_neg hng]

theorem map_Pairs_keys (pairs : List (ℕ × ℕ)) :
    (map_Pairs pairs).map Prod.fst = (pairs.map Prod.fst).dedup := by
  unfold map_Pairs
  rw [List.map_map]
  have hid : (Prod.fst ∘ fun I : ℕ =>
      (I, (pairs.filter (fun p => p.1 == I)).map Prod.snd)) = id := rfl
  rw [hid, List.map_id]

theorem map_Pairs_snd_nodup (pairs : List (ℕ × ℕ)) (hnd : pairs.Nodup) :
    ∀ g ∈ map_Pairs pairs, (g.2 : List ℕ).Nodup := by
  intro g hg
  unfold map_Pairs at hg
  rcases List.mem_map.mp hg with ⟨I, hI, rfl⟩
  dsimp only
  apply List.Nodup.map_on
  · intro x hx y hy hxy
    have hx1 : x.1 = I := by simpa using (List.mem_filter.mp hx).2
    have hy1 : y.1 = I := by simpa using (List.mem_filter.mp hy).2
    exact Prod.ext (hx1.trans hy1.symm) hxy
  · exact hnd.filter _

theorem map_Pairs_covers (pairs : List (ℕ × ℕ)) (k : ℕ × ℕ) :
    (∃ g ∈ map_Pairs pairs, k.1 = g.1 ∧ k.2 ∈ g.2) ↔ k ∈ pairs := by
  unfold map_Pairs
  constructor
  · rintro ⟨g, hg, h1, h2⟩
    rcases List.mem_map.mp hg with ⟨I, hI, rfl⟩
    dsimp only at h1 h2
    rcases List.mem_map.mp h2 with ⟨p, hp, hsnd⟩
    have hmem := (List.mem_filter.mp hp).1
    have hp1 : p.1 = I := by simpa using (List.mem_filter.mp hp).2
    have hpk : p = k := Prod.ext (by rw [hp1, h1]) hsnd
    rwa [← hpk]
  · intro hk
    refine ⟨(k.1, (pairs.filter (fun p => p.1 == k.1)).map Prod.snd),
      List.mem_map.mpr ⟨k.1, List.mem_dedup.mpr (List.mem_map_of_mem Prod.fst hk), rfl⟩,
      rfl, ?_⟩
    exact List.mem_map.mpr ⟨k, List.mem_filter.mpr ⟨hk, by simp⟩, rfl⟩

theorem map_Pairs_length_sum (pairs : List (ℕ × ℕ)) :
    ((map_Pairs pairs).map (fun g => g.2.length)).sum = pairs.length := by
  unfold map_Pairs
  rw [List.map_map]
  have hfun : ((fun g : ℕ × List ℕ => g.2.length) ∘
      fun I => (I, (pairs.filter (fun p => p.1 == I)).map Prod.snd)) =
      fun I => (pairs.map Prod.fst).count I := by
    funext I
    simp only [Function.comp_apply, List.length_map]
    rw [← List.countP_eq_length_filter, List.count, List.countP_map]
    rfl
  rw [hfun, List.sum_map_count_dedup_eq_length, List.length_map]

theorem Match_map_master (mi : ℚ → Regions → Regions → List (ℕ × ℕ)) (dr : ℚ)
    (rpv : ℕ → Regions) (pairs : List (ℕ × ℕ)) (hnd : pairs.Nodup) (k : ℕ × ℕ) :
    (ImageCollectionMatcher_Generic.Match mi dr rpv pairs).map k =
      if k ∈ pairs then perPair mi dr rpv k else none := by
  unfold ImageCollectionMatcher_Generic.Match MatchGroups
  have hkeys : ((map_Pairs pairs).map Prod.fst).Nodup := by
    rw [map_Pairs_keys]
    exact List.nodup_dedup _
  have H := foldGroups_map mi dr rpv (map_Pairs pairs) initialState k hkeys
    (map_Pairs_snd_nodup pairs hnd) (fun _ _ _ => rfl)
  by_cases hk : k ∈ pairs
  · rw [if_pos hk, H.1 ((map_Pairs_covers pairs k).mpr hk)]
  · rw [if_neg hk, H.2 (fun hc => hk ((map_Pairs_covers pairs k).mp hc))]
    rfl

theorem Match_attempted_master (mi : ℚ → Regions → Regions → List (ℕ × ℕ)) (dr : ℚ)
    (rpv : ℕ → Regions) (pairs : List (ℕ × ℕ)) (k : ℕ × ℕ) :
    (k ∈ (ImageCollectionMatcher_Generic.Match mi dr rpv pairs).attempted ↔
      k ∈ pairs ∧ attemptCond rpv k) := by
  unfold ImageCollectionMatcher_Generic.Match MatchGroups
  rw [foldGroups_attempted]
  constructor
  · rintro (h | ⟨g, hg, h1, h2, h3⟩)
    · cases h
    · exact ⟨(map_Pairs_covers pairs k).mp ⟨g, hg, h1, h2⟩, h3⟩
  · rintro ⟨hk, hc⟩
    rcases (map_Pairs_covers pairs k).mpr hk with ⟨g, hg, h1, h2⟩
    exact Or.inr ⟨g, hg, h1, h2, hc⟩

theorem Match_progress_master (mi : ℚ → Regions → Regions → List (ℕ × ℕ)) (dr : ℚ)
    (rpv : ℕ → Regions) (pairs : List (ℕ × ℕ)) :
    (ImageCollectionMatcher_Generic.Match mi dr rpv pairs).progress = pairs.length := by
  unfold ImageCollectionMatcher_Generic.Match MatchGroups
  rw [foldGroups_progress, map_Pairs_length_sum]
  show 0 + _ = _
  exact Nat.zero_add _

theorem Match_builds_master (mi : ℚ → Regions → Regions → List (ℕ × ℕ)) (dr : ℚ)
    (rpv : ℕ → Regions) (pairs : List (ℕ × ℕ)) :
    (ImageCollectionMatcher_Generic.Match mi dr rpv pairs).builds =
      ((pairs.map Prod.fst).dedup).filter (fun I => !((rpv I).RegionCount == 0)) := by
  unfold ImageCollectionMatcher_Generic.Match MatchGroups
  rw [foldGroups_builds, map_Pairs_keys]
  rfl

theorem naiveStep_map_frame (mi : ℚ → Regions → Regions → List (ℕ × ℕ)) (dr : ℚ)
    (rpv : ℕ → Regions) (st : MatchState) (p : ℕ × ℕ) (k : ℕ × ℕ) (hk : k ≠ p) :
    (naiveStep mi dr rpv st p).map k = st.map k := by
  unfold naiveStep
  split
  · rfl
  · exact processOne_map_frame _ _ _ _ _ _ _ (by simpa using hk)

theorem naiveStep_map_write (mi : ℚ → Regions → Regions → List (ℕ × ℕ)) (dr : ℚ)
    (rpv : ℕ → Regions) (st : MatchState) (p : ℕ × ℕ)
    (hnone : st.map p = none) :
    (naiveStep mi dr rpv st p).map p = perPair mi dr rpv p := by
  unfold naiveStep
  split
  · rename_i h0
    show st.map p = _
    rw [hnone]
    simp [perPair, h0]
  · rename_i h0
    have := processOne_map_write mi dr rpv p.1
      { st with builds := st.builds ++ [p.1] } p.2 h0 hnone
    simpa using this

theorem naiveFold_map (mi : ℚ → Regions → Regions → List (ℕ × ℕ)) (dr : ℚ)
    (rpv : ℕ → Regions) (pairs : List (ℕ × ℕ)) (st : MatchState) (k : ℕ × ℕ)
    (hnd : pairs.Nodup) (hnone : k ∈ pairs → st.map k = none) :
    (pairs.foldl (naiveStep mi dr rpv) st).map k =
      if k ∈ pairs then perPair mi dr rpv k else st.map k := by
  induction pairs generalizing st with
  | nil => simp
  | cons p ps ih =>
    have hp : p ∉ ps := (List.nodup_cons.mp hnd).1
    have hnd2 : ps.Nodup := (List.nodup_cons.mp hnd).2
    rw [List.foldl_cons, ih _ hnd2 ?hn]
    case hn =>
      intro h2
      have hne : k ≠ p := fun he => hp (he ▸ h2)
      rw [naiveStep_map_frame _ _ _ _ _ _ hne]
      exact hnone (List.mem_cons_of_mem _ h2)
    by_cases hA : k ∈ ps
    · rw [if_pos hA, if_pos (List.mem_cons_of_mem _ hA)]
    · rw [if_neg hA]
      by_cases hB : k = p
      · subst hB
        rw [if_pos (List.mem_cons_self _ _)]
        exact naiveStep_map_write _ _ _ _ _ (hnone (List.mem_cons_self _ _))
      · have hC : ¬(k ∈ p :: ps) := by
          intro h
          rcases List.mem_cons.mp h with h | h
          · exact hB h
          · exact hA h
        rw [if_neg hC]
        exact naiveStep_map_frame _ _ _ _ _ _ hB

theorem Match_naive_map_master (mi : ℚ → Regions → Regions → List (ℕ × ℕ)) (dr : ℚ)
    (rpv : ℕ → Regions) (pairs : List (ℕ × ℕ)) (hnd : pairs.Nodup) (k : ℕ × ℕ) :
    (Match_naive mi dr rpv pairs).map k =
      if k ∈ pairs then perPair mi dr rpv k else none := by
  unfold Match_naive
  rw [naiveFold_map mi dr rpv pairs initialState k hnd (fun _ => rfl)]
  split
  · rfl
  · rfl

theorem GroupsPerm_keys {gs1 gs2 : List (ℕ × List ℕ)} (h : GroupsPerm gs1 gs2) :
    gs1.map Prod.fst = gs2.map Prod.fst := by
  unfold GroupsPerm at h
  induction h with
  | nil => rfl
  | cons ha hl ih =>
    rw [List.map_cons, List.map_cons, ih, ha.1]

theorem GroupsPerm_covers {gs1 gs2 : List (ℕ × List ℕ)} (h : GroupsPerm gs1 gs2)
    (k : ℕ × ℕ) :
    ((∃ g ∈ gs1, k.1 = g.1 ∧ k.2 ∈ g.2) ↔ (∃ g ∈ gs2, k.1 = g.1 ∧ k.2 ∈ g.2)) := by
  unfold GroupsPerm at h
  induction h with
  | nil => simp
  | cons ha hl ih =>
    rename_i a b l1 l2
    constructor
    · rintro ⟨g, hg, h1, h2⟩
      rcases List.mem_cons.mp hg with rfl | hg
      · exact ⟨b, List.mem_cons_self _ _, h1.trans ha.1, ha.2.mem_iff.mp h2⟩
      · rcases ih.mp ⟨g, hg, h1, h2⟩ with ⟨g2, hg2, hh⟩
        exact ⟨g2, List.mem_cons_of_mem _ hg2, hh⟩
    · rintro ⟨g, hg, h1, h2⟩
      rcases List.mem_cons.mp hg with rfl | hg
      · exact ⟨a, List.mem_cons_self _ _, h1.trans ha.1.symm, ha.2.mem_iff.mpr h2⟩
      · rcases ih.mpr ⟨g, hg, h1, h2⟩ with ⟨g2, hg2, hh⟩
        exact ⟨g2, List.mem_cons_of_mem _ hg2, hh⟩

theorem GroupsPerm_snd_nodup {gs1 gs2 : List (ℕ × List ℕ)} (h : GroupsPerm gs1 gs2) :
    (∀ g ∈ gs1, (g.2 : List ℕ).Nodup) → ∀ g ∈ gs2, (g.2 : List ℕ).Nodup := by
  unfold GroupsPerm at h
  induction h with
  | nil =>
    intro h1 g hg
    cases hg
  | cons ha hl ih =>
    intro h1 g hg
    rcases List.mem_cons.mp hg with rfl | hg
    · exact ha.2.nodup_iff.mp (h1 _ (List.mem_cons_self _ _))
    · exact ih (fun g2 hg2 => h1 g2 (List.mem_cons_of_mem _ hg2)) g hg

theorem GroupsPerm_sum_lengths {gs1 gs2 : List (ℕ × List ℕ)} (h : GroupsPerm gs1 gs2) :
    (gs1.map (fun g => g.2.length)).sum = (gs2.map (fun g => g.2.length)).sum := by
  unfold GroupsPerm at h
  induction h with
  | nil => rfl
  | cons ha hl ih =>
    rw [List.map_cons, List.map_cons, List.sum_cons, List.sum_cons, ih, ha.2.length_eq]

theorem sqDist_nonneg (a b : List ℚ) : 0 ≤ sqDist a b := by
  unfold sqDist
  apply List.sum_nonneg
  intro x hx
  rcases List.mem_map.mp hx with ⟨p, _, rfl⟩
  exact sq_nonneg _

theorem minIdxDist_mem (l : List ℚ) (i : ℕ) (m : ℚ)
    (h : minIdxDist l = some (i, m)) : m ∈ l := by
  induction l generalizing i m with
  | nil => cases h
  | cons d ds ih =>
    unfold minIdxDist at h
    cases hmin : minIdxDist ds with
    | none =>
      rw [hmin] at h
      cases h
      exact List.mem_cons_self _ _
    | some p =>
      obtain ⟨j, m2⟩ := p
      rw [hmin] at h
      dsimp only at h
      by_cases hle : d ≤ m2
      · rw [if_pos hle] at h
        cases h
        exact List.mem_cons_self _ _
      · rw [if_neg hle] at h
        cases h
        exact List.mem_cons_of_mem _ (ih _ _ hmin)

theorem query_sd_nonneg (ref : List (List ℚ)) (q : List ℚ) (i : ℕ) (nd sd : ℚ)
    (h : RegionsDatabaseMatcher.query ref q = some (i, nd, sd)) : 0 ≤ sd := by
  unfold RegionsDatabaseMatcher.query at h
  cases h1 : minIdxDist (ref.map (fun r => sqDist r q)) with
  | none =>
    rw [h1] at h
    cases h
  | some t =>
    obtain ⟨i2, nd2⟩ := t
    rw [h1] at h
    dsimp only at h
    cases h2 : minIdxDist ((ref.map (fun r => sqDist r q)).eraseIdx i2) with
    | none =>
      rw [h2] at h
      cases h
    | some p =>
      rw [h2] at h
      dsimp only at h
      have hmem : p.2 ∈ (ref.map (fun r => sqDist r q)).eraseIdx i2 :=
        minIdxDist_mem _ p.1 p.2 (by rw [h2])
      have hmem2 : p.2 ∈ ref.map (fun r => sqDist r q) :=
        (List.eraseIdx_sublist _ _).mem hmem
      rcases List.mem_map.mp hmem2 with ⟨r, _, hr⟩
      cases h
      rw [← hr]
      exact sqDist_nonneg r q

theorem filterMap_sublist_mono {α β : Type} (f g : α → Option β) (l : List α)
    (h : ∀ a b, f a = some b → g a = some b) :
    (l.filterMap f).Sublist (l.filterMap g) := by
  induction l with
  | nil => simp
  | cons a l2 ih =>
    rw [List.filterMap_cons, List.filterMap_cons]
    cases hf : f a with
    | none =>
      cases hg : g a with
      | none => exact ih
      | some b => exact ih.cons _
    | some b =>
      rw [h a b hf]
      exact ih.cons₂ _

theorem RegionsDatabaseMatcher_Match_mono (r1 r2 : ℚ) (h0 : 0 ≤ r1) (h12 : r1 ≤ r2)
    (rI rJ : Regions) :
    (RegionsDatabaseMatcher.Match r1 rI rJ).Sublist
      (RegionsDatabaseMatcher.Match r2 rI rJ) := by
  unfold RegionsDatabaseMatcher.Match
  apply filterMap_sublist_mono
  intro jq b hf
  cases hq : RegionsDatabaseMatcher.query rI.descriptors jq.2 with
  | none =>
    rw [hq] at hf
    cases hf
  | some t =>
    obtain ⟨i, nd, sd⟩ := t
    rw [hq] at hf
    dsimp only at hf ⊢
    by_cases hlt : nd < r1 ^ 2 * sd
    · have hsd : 0 ≤ sd := query_sd_nonneg _ _ _ _ _ hq
      have hle : r1 ^ 2 * sd ≤ r2 ^ 2 * sd :=
        mul_le_mul_of_nonneg_right (pow_le_pow_left₀ h0 h12 2) hsd
      rw [if_pos hlt] at hf
      rw [if_pos (lt_of_lt_of_le hlt hle)]
      exact hf
    · rw [if_neg hlt] at hf
      cases hf

theorem cellIndex_lt (coord : ℚ) (extent gridSize : ℕ)
    (h0 : 0 ≤ coord) (hlt : coord < (extent : ℚ)) (hg : 0 < gridSize) :
    cellIndex coord extent gridSize < gridSize := by
  unfold cellIndex
  have hext : (0:ℚ) < (extent : ℚ) := lt_of_le_of_lt h0 hlt
  have hgq : (0:ℚ) < (gridSize : ℚ) := by exact_mod_cast hg
  have hreg : (0:ℚ) < (extent : ℚ) / (gridSize : ℚ) := div_pos hext hgq
  have hq : coord / ((extent : ℚ) / (gridSize : ℚ)) < (gridSize : ℚ) := by
    rw [div_lt_iff₀ hreg]
    have hcalc : (gridSize : ℚ) * ((extent : ℚ) / (gridSize : ℚ)) = (extent : ℚ) := by
      field_simp
    rw [hcalc]
    exact hlt
  have hfl : Nat.floor (coord / ((extent : ℚ) / (gridSize : ℚ))) < gridSize := by
    rw [Nat.floor_lt (div_nonneg h0 hreg.le)]
    exact hq
  exact lt_of_le_of_lt (min_le_left _ _) hfl

/-- The number of grid-filter acceptances still possible, summed over the
in-bounds cells: each cell contributes its count capped at
`keypointsPerCell`. -/
def gridPotential (gridSize kpc : ℕ) (counts : ℕ × ℕ → ℕ) : ℕ :=
  ∑ c in Finset.range gridSize ×ˢ Finset.range gridSize, min (counts c) kpc

theorem gridStep_potential (gridSize w h kpc : ℕ) (st : GridState) (kp : SIFTKeyPoint)
    (hx : cellIndex kp.x w gridSize < gridSize)
    (hy : cellIndex kp.y h gridSize < gridSize) :
    (gridStep gridSize w h kpc st kp).filtered_keypoints.length +
        gridPotential gridSize kpc st.countFeatPerCell =
      st.filtered_keypoints.length +
        gridPotential gridSize kpc (gridStep gridSize w h kpc st kp).countFeatPerCell := by
  have hmem : (cellIndex kp.x w gridSize, cellIndex kp.y h gridSize) ∈
      Finset.range gridSize ×ˢ Finset.range gridSize := by
    rw [Finset.mem_product, Finset.mem_range, Finset.mem_range]
    exact ⟨hx, hy⟩
  unfold gridStep gridPotential
  dsimp only
  set key := (cellIndex kp.x w gridSize, cellIndex kp.y h gridSize) with hkey
  set cnt := st.countFeatPerCell key with hcnt
  have hupd : (fun c => min (Function.update st.countFeatPerCell key (cnt + 1) c) kpc) =
      Function.update (fun c => min (st.countFeatPerCell c) kpc) key (min (cnt + 1) kpc) := by
    funext c
    by_cases hc : c = key
    · subst hc
      rw [Function.update_same, Function.update_same]
    · rw [Function.update_noteq hc, Function.update_noteq hc]
  rw [hupd, Finset.sum_update_of_mem hmem,
    Finset.sum_eq_sum_diff_singleton_add hmem (fun c => min (st.countFeatPerCell c) kpc)]
  by_cases hcond : cnt < kpc
  · rw [if_pos hcond]
    simp only [List.length_append, List.length_singleton]
    omega
  · rw [if_neg hcond]
    omega

theorem gridFold_potential (gridSize w h kpc : ℕ) (kps : List SIFTKeyPoint)
    (st : GridState)
    (hin : ∀ kp ∈ kps, cellIndex kp.x w gridSize < gridSize ∧
      cellIndex kp.y h gridSize < gridSize) :
    (kps.foldl (gridStep gridSize w h kpc) st).filtered_keypoints.length +
        gridPotential gridSize kpc st.countFeatPerCell =
      st.filtered_keypoints.length +
        gridPotential gridSize kpc
          (kps.foldl (gridStep gridSize w h kpc) st).countFeatPerCell := by
  induction kps generalizing st with
  | nil => rfl
  | cons kp kps2 ih =>
    rw [List.foldl_cons]
    have hkp := hin kp (List.mem_cons_self _ _)
    have hstep := gridStep_potential gridSize w h kpc st kp hkp.1 hkp.2
    have ihh := ih (gridStep gridSize w h kpc st kp)
      (fun kp2 h2 => hin kp2 (List.mem_cons_of_mem _ h2))
    omega

theorem gridPotential_le (gridSize kpc : ℕ) (counts : ℕ × ℕ → ℕ) :
    gridPotential gridSize kpc counts ≤ gridSize * gridSize * kpc := by
  unfold gridPotential
  calc ∑ c in Finset.range gridSize ×ˢ Finset.range gridSize, min (counts c) kpc
      ≤ ∑ _c in Finset.range gridSize ×ˢ Finset.range gridSize, kpc :=
        Finset.sum_le_sum (fun c _ => min_le_right _ _)
    _ = gridSize * gridSize * kpc := by
        rw [Finset.sum_const, Finset.card_product, Finset.card_range, smul_eq_mul]

theorem gridPotential_init (gridSize kpc : ℕ) :
    gridPotential gridSize kpc gridInit.countFeatPerCell = 0 := by
  unfold gridPotential gridInit
  simp

theorem gridFilter_le (gridSize maxTotal w h : ℕ) (kps : List SIFTKeyPoint)
    (hg : gridSize ≠ 0)
    (hin : ∀ kp ∈ kps, 0 ≤ kp.x ∧ kp.x < (w : ℚ) ∧ 0 ≤ kp.y ∧ kp.y < (h : ℚ)) :
    (gridFilter gridSize maxTotal w h kps).length ≤ maxTotal := by
  have hcells : ∀ kp ∈ kps, cellIndex kp.x w gridSize < gridSize ∧
      cellIndex kp.y h gridSize < gridSize := by
    intro kp hkp
    obtain ⟨h1, h2, h3, h4⟩ := hin kp hkp
    exact ⟨cellIndex_lt _ _ _ h1 h2 (Nat.pos_of_ne_zero hg),
      cellIndex_lt _ _ _ h3 h4 (Nat.pos_of_ne_zero hg)⟩
  have hpot := gridFold_potential gridSize w h (maxTotal / (gridSize * gridSize))
    kps gridInit hcells
  rw [gridPotential_init] at hpot
  have hbound := gridPotential_le gridSize (maxTotal / (gridSize * gridSize))
    (kps.foldl (gridStep gridSize w h (maxTotal / (gridSize * gridSize))) gridInit).countFeatPerCell
  have hdiv : gridSize * gridSize * (maxTotal / (gridSize * gridSize)) ≤ maxTotal := by
    rw [Nat.mul_comm]
    exact Nat.div_mul_le_self _ _
  have hflen : (kps.foldl (gridStep gridSize w h (maxTotal / (gridSize * gridSize)))
      gridInit).filtered_keypoints.length ≤ maxTotal := by
    have : (gridInit.filtered_keypoints).length = 0 := rfl
    omega
  unfold gridFilter gridFilterRefill
  split
  · rw [List.length_append, List.length_take]
    omega
  · exact hflen

/-- A small concrete regions-per-view fixture used by the witnesses below:
views 0 and 1 share describer type 7, view 2 has type 8, every other view
(in particular view 5) has an empty descriptor set. -/
def rpvW : ℕ → Regions := fun n =>
  if n = 0 then { descriptors := [[0], [10]], typeId := 7 }
  else if n = 1 then { descriptors := [[1], [20]], typeId := 7 }
  else if n = 2 then { descriptors := [[0]], typeId := 8 }
  else { descriptors := [], typeId := 7 }

/-- A trivial concrete per-pair matcher used by the witnesses below. -/
def miW : ℚ → Regions → Regions → List (ℕ × ℕ) := fun _ _ _ => [(0, 0)]

/-- C1: for every Pair Set, every key of the resulting Pairwise Matches map
is a pair (I,J) from the input set, and every stored value is a non-empty
correspondence list — a pair whose accepted-correspondence list is empty is
never inserted into the map. -/
theorem C1_match_map_keys_nonempty (mi : ℚ → Regions → Regions → List (ℕ × ℕ))
    (dr : ℚ) (rpv : ℕ → Regions) (pairs : List (ℕ × ℕ)) (hnd : pairs.Nodup)
    (k : ℕ × ℕ) (v : List (ℕ × ℕ))
    (hk : (ImageCollectionMatcher_Generic.Match mi dr rpv pairs).map k = some v) :
    k ∈ pairs ∧ v ≠ [] := by
  rw [Match_map_master mi dr rpv pairs hnd k] at hk
  by_cases hmem : k ∈ pairs
  · refine ⟨hmem, ?_⟩
    rw [if_pos hmem] at hk
    unfold perPair at hk
    split at hk
    · cases hk
    · split at hk
      · cases hk
      · rename_i hne
        cases hk
        intro hnil
        rw [hnil] at hne
        simp at hne
  · rw [if_neg hmem] at hk
    cases hk

theorem C1_witness :
    ((0, 1) ∈ [((0 : ℕ), (1 : ℕ))] ∧ ([((0 : ℕ), (0 : ℕ))] : List (ℕ × ℕ)) ≠ []) :=
  C1_match_map_keys_nonempty miW 0 rpvW [(0, 1)] (by decide) (0, 1) [(0, 0)] (by decide)

/-- C2: a requested pair (I,J) where view I's descriptor set for the
requested type is empty, or view J's is empty, or the two views' describer
types differ, never appears in the output Pairwise Matches map, and no
matching is attempted for it. -/
theorem C2_skip_semantics (mi : ℚ → Regions → Regions → List (ℕ × ℕ)) (dr : ℚ)
    (rpv : ℕ → Regions) (pairs : List (ℕ × ℕ)) (hnd : pairs.Nodup) (I J : ℕ)
    (hskip : (rpv I).RegionCount = 0 ∨ (rpv J).RegionCount = 0 ∨
      (rpv I).typeId ≠ (rpv J).typeId) :
    (ImageCollectionMatcher_Generic.Match mi dr rpv pairs).map (I, J) = none ∧
      (I, J) ∉ (ImageCollectionMatcher_Generic.Match mi dr rpv pairs).attempted := by
  constructor
  · rw [Match_map_master mi dr rpv pairs hnd (I, J)]
    split
    · unfold perPair
      dsimp only
      rw [if_pos hskip]
    · rfl
  · intro hmem
    rcases (Match_attempted_master mi dr rpv pairs (I, J)).mp hmem with ⟨_, hc⟩
    rcases hskip with hs | hs | hs
    · exact hc.1 hs
    · exact hc.2.1 hs
    · exact hs hc.2.2

theorem C2_witness :
    (ImageCollectionMatcher_Generic.Match miW 0 rpvW [(5, 1), (0, 2)]).map (5, 1) = none ∧
      (5, 1) ∉ (ImageCollectionMatcher_Generic.Match miW 0 rpvW [(5, 1), (0, 2)]).attempted :=
  C2_skip_semantics miW 0 rpvW [(5, 1), (0, 2)] (by decide) 5 1 (Or.inl (by decide))

/-- C3 counterexample: the claim says the inner comparison loop must run
single-threaded (multithreading flag `false`) when the configured strategy
is cascade hashing; in the code the flag is `true` exactly then. -/
theorem C3_counterexample :
    ¬(b_multithreaded_pair_search EMatcherType.CASCADE_HASHING_L2 = false) := by
  decide

/-- C3 amended: the inner comparison loop over views J is run in parallel
exactly when the configured strategy is cascade hashing
(`CASCADE_HASHING_L2`) — the code comment explains that OpenMP instructions
are not used inside that matcher, while the other strategies run the loop
single-threaded. -/
theorem C3_amended_multithread_iff_cascade (t : EMatcherType) :
    b_multithreaded_pair_search t = true ↔ t = EMatcherType.CASCADE_HASHING_L2 := by
  cases t <;> decide

/-- C4: the grouped execution (at most one matcher index built per distinct
reference view with a non-empty descriptor set, witnessed by the `builds`
log being duplicate-free and restricted to non-empty requested reference
views) produces the same Pairwise Matches map as the naive algorithm that
builds a fresh index for every individual pair. -/
theorem C4_grouped_refines_naive (mi : ℚ → Regions → Regions → List (ℕ × ℕ))
    (dr : ℚ) (rpv : ℕ → Regions) (pairs : List (ℕ × ℕ)) (hnd : pairs.Nodup) :
    (∀ k, (ImageCollectionMatcher_Generic.Match mi dr rpv pairs).map k =
      (Match_naive mi dr rpv pairs).map k) ∧
    (ImageCollectionMatcher_Generic.Match mi dr rpv pairs).builds.Nodup ∧
    (∀ I ∈ (ImageCollectionMatcher_Generic.Match mi dr rpv pairs).builds,
      (rpv I).RegionCount ≠ 0 ∧ I ∈ pairs.map Prod.fst) := by
  refine ⟨?_, ?_, ?_⟩
  · intro k
    rw [Match_map_master mi dr rpv pairs hnd k,
      Match_naive_map_master mi dr rpv pairs hnd k]
  · rw [Match_builds_master]
    exact (List.nodup_dedup _).filter _
  · intro I hI
    rw [Match_builds_master] at hI
    have h1 := List.mem_filter.mp hI
    refine ⟨?_, List.mem_dedup.mp h1.1⟩
    simpa using h1.2

theorem C4_witness :
    ((ImageCollectionMatcher_Generic.Match miW 0 rpvW [(0, 1), (0, 2), (5, 1)]).map (0, 1) =
        (Match_naive miW 0 rpvW [(0, 1), (0, 2), (5, 1)]).map (0, 1)) ∧
      (ImageCollectionMatcher_Generic.Match miW 0 rpvW [(0, 1), (0, 2), (5, 1)]).builds.Nodup :=
  ⟨(C4_grouped_refines_naive miW 0 rpvW [(0, 1), (0, 2), (5, 1)] (by decide)).1 (0, 1),
    (C4_grouped_refines_naive miW 0 rpvW [(0, 1), (0, 2), (5, 1)] (by decide)).2.1⟩

/-- C5: the set of accepted correspondences is monotone in the
distance-ratio threshold — since a correspondence is accepted iff
`nearestDist < ratioThreshold^2 * secondDist`, decreasing the threshold
never increases the number of accepted correspondences for any pair. -/
theorem C5_ratio_monotone (r1 r2 : ℚ) (h0 : 0 ≤ r1) (h12 : r1 ≤ r2)
    (rI rJ : Regions) :
    (RegionsDatabaseMatcher.Match r1 rI rJ).length ≤
      (RegionsDatabaseMatcher.Match r2 rI rJ).length :=
  (RegionsDatabaseMatcher_Match_mono r1 r2 h0 h12 rI rJ).length_le

theorem C5_witness :
    (RegionsDatabaseMatcher.Match (Rat.divInt 1 2)
        { descriptors := [[0], [10]], typeId := 7 }
        { descriptors := [[1]], typeId := 7 }).length ≤
      (RegionsDatabaseMatcher.Match (Rat.divInt 4 5)
        { descriptors := [[0], [10]], typeId := 7 }
        { descriptors := [[1]], typeId := 7 }).length :=
  C5_ratio_monotone (Rat.divInt 1 2) (Rat.divInt 4 5) (by decide) (by decide) _ _

/-- C6: with a deterministic per-pair matcher (as the brute-force and
seeded tree-based strategies are), running `Match` with the inner
comparison loop of every reference group visited in any order (any
permutation of each group's comparison list, i.e. any thread schedule of
the conceptually parallel loop) yields exactly the same Pairwise Matches
map and progress total as the canonical run. -/
theorem C6_schedule_determinism (mi : ℚ → Regions → Regions → List (ℕ × ℕ))
    (dr : ℚ) (rpv : ℕ → Regions) (pairs : List (ℕ × ℕ))
    (groups2 : List (ℕ × List ℕ)) (hnd : pairs.Nodup)
    (hperm : GroupsPerm (map_Pairs pairs) groups2) :
    (∀ k, (MatchGroups mi dr rpv groups2).map k =
      (ImageCollectionMatcher_Generic.Match mi dr rpv pairs).map k) ∧
    (MatchGroups mi dr rpv groups2).progress =
      (ImageCollectionMatcher_Generic.Match mi dr rpv pairs).progress := by
  constructor
  · intro k
    rw [Match_map_master mi dr rpv pairs hnd k]
    have hkeys2 : (groups2.map Prod.fst).Nodup := by
      rw [← GroupsPerm_keys hperm, map_Pairs_keys]
      exact List.nodup_dedup _
    have hJs2 := GroupsPerm_snd_nodup hperm (map_Pairs_snd_nodup pairs hnd)
    have H := foldGroups_map mi dr rpv groups2 initialState k hkeys2 hJs2
      (fun _ _ _ => rfl)
    by_cases hk : k ∈ pairs
    · rw [if_pos hk]
      exact H.1 ((GroupsPerm_covers hperm k).mp ((map_Pairs_covers pairs k).mpr hk))
    · rw [if_neg hk]
      exact H.2 (fun hc => hk ((map_Pairs_covers pairs k).mp
        ((GroupsPerm_covers hperm k).mpr hc)))
  · rw [Match_progress_master]
    unfold MatchGroups
    rw [foldGroups_progress, ← GroupsPerm_sum_lengths hperm, map_Pairs_length_sum]
    exact Nat.zero_add _

theorem C6_witness :
    ((MatchGroups miW 0 rpvW [(0, [2, 1])]).map (0, 1) =
        (ImageCollectionMatcher_Generic.Match miW 0 rpvW [(0, 1), (0, 2)]).map (0, 1)) ∧
      (MatchGroups miW 0 rpvW [(0, [2, 1])]).progress =
        (ImageCollectionMatcher_Generic.Match miW 0 rpvW [(0, 1), (0, 2)]).progress := by
  have hmp : map_Pairs [(0, 1), (0, 2)] = [(0, [1, 2])] := by decide
  have h := C6_schedule_determinism miW 0 rpvW [(0, 1), (0, 2)] [(0, [2, 1])]
    (by decide)
    (by rw [hmp]; exact List.Forall₂.cons ⟨rfl, List.Perm.swap 2 1 []⟩ List.Forall₂.nil)
  exact ⟨h.1 (0, 1), h.2⟩

/-- C7: over one complete call, the progress counter advances in total by
exactly the number of requested pairs; a reference-view group with zero
descriptors advances it by the number of its comparison views, and every
other comparison advances it by exactly one whatever its outcome. -/
theorem C7_progress_total (mi : ℚ → Regions → Regions → List (ℕ × ℕ)) (dr : ℚ)
    (rpv : ℕ → Regions) (pairs : List (ℕ × ℕ)) :
    (ImageCollectionMatcher_Generic.Match mi dr rpv pairs).progress = pairs.length ∧
    (∀ (st : MatchState) (g : ℕ × List ℕ), (rpv g.1).RegionCount = 0 →
      (processGroup mi dr rpv st g).progress = st.progress + g.2.length) ∧
    (∀ (st : MatchState) (I J : ℕ),
      (processOne mi dr rpv I st J).progress = st.progress + 1) := by
  refine ⟨Match_progress_master mi dr rpv pairs, ?_, ?_⟩
  · intro st g h0
    exact processGroup_progress mi dr rpv st g
  · intro st I J
    exact processOne_progress mi dr rpv I st J

theorem C7_witness :
    (ImageCollectionMatcher_Generic.Match miW 0 rpvW [(0, 1), (0, 2), (5, 1)]).progress = 3 ∧
      (processGroup miW 0 rpvW initialState (5, [1, 2])).progress = 0 + 2 ∧
      (processOne miW 0 rpvW 0 initialState 2).progress = 0 + 1 :=
  ⟨(C7_progress_total miW 0 rpvW [(0, 1), (0, 2), (5, 1)]).1,
    (C7_progress_total miW 0 rpvW [(0, 1), (0, 2), (5, 1)]).2.1 initialState (5, [1, 2])
      (by decide),
    (C7_progress_total miW 0 rpvW [(0, 1), (0, 2), (5, 1)]).2.2 initialState 0 2⟩

/-- C8: `Localize` reports its outcome as a boolean success/failure result
(a total function, never an exception) for every expected failure mode —
no retrieval candidates, insufficient accumulated correspondences (in which
case the resection solver is not consulted), and resection failure — and
returns `true` with the pose exactly when resection succeeds. -/
theorem C8_localize_total (P : Type) (candidates : List ℕ)
    (corrOf : ℕ → List (ℕ × ℕ)) (minCorr : ℕ)
    (resect : List (ℕ × ℕ) → Except String (P × List (ℕ × ℕ))) :
    (candidates = [] →
      VoctreeLocalizer.Localize candidates corrOf minCorr resect =
        (false, LocResult.failed "no retrieval candidates")) ∧
    (candidates ≠ [] →
      (accumCorrs corrOf minCorr candidates []).length < minCorr →
      VoctreeLocalizer.Localize candidates corrOf minCorr resect =
        (false, LocResult.failed "insufficient correspondences")) ∧
    (∀ r, candidates ≠ [] →
      ¬(accumCorrs corrOf minCorr candidates []).length < minCorr →
      resect (accumCorrs corrOf minCorr candidates []) = Except.error r →
      VoctreeLocalizer.Localize candidates corrOf minCorr resect =
        (false, LocResult.failed r)) ∧
    (∀ p inl, candidates ≠ [] →
      ¬(accumCorrs corrOf minCorr candidates []).length < minCorr →
      resect (accumCorrs corrOf minCorr candidates []) = Except.ok (p, inl) →
      VoctreeLocalizer.Localize candidates corrOf minCorr resect =
        (true, LocResult.localized p inl)) := by
  refine ⟨?_, ?_, ?_, ?_⟩
  · intro hc
    unfold VoctreeLocalizer.Localize
    rw [if_pos (List.isEmpty_iff.mpr hc)]
  · intro hc hlen
    unfold VoctreeLocalizer.Localize
    rw [if_neg (by simpa using List.isEmpty_iff.not.mpr hc), if_pos hlen]
  · intro r hc hlen hres
    unfold VoctreeLocalizer.Localize
    rw [if_neg (by simpa using List.isEmpty_iff.not.mpr hc), if_neg hlen, hres]
  · intro p inl hc hlen hres
    unfold VoctreeLocalizer.Localize
    rw [if_neg (by simpa using List.isEmpty_iff.not.mpr hc), if_neg hlen, hres]

theorem C8_witness :
    (VoctreeLocalizer.Localize [] (fun _ => []) 4
        (fun _ => (Except.error "resection failed" : Except String (ℕ × List (ℕ × ℕ)))) =
      (false, LocResult.failed "no retrieval candidates")) ∧
      (VoctreeLocalizer.Localize [7] (fun _ => [(0, 0), (1, 1)]) 4
          (fun _ => (Except.error "resection failed" : Except String (ℕ × List (ℕ × ℕ)))) =
        (false, LocResult.failed "insufficient correspondences")) :=
  ⟨(C8_localize_total ℕ [] (fun _ => []) 4
      (fun _ => Except.error "resection failed")).1 rfl,
    (C8_localize_total ℕ [7] (fun _ => [(0, 0), (1, 1)]) 4
      (fun _ => Except.error "resection failed")).2.1 (by decide) (by decide)⟩

/-- C9: during grid filtering, for every keypoint whose coordinates lie
inside the image (`0 ≤ x < width`, `0 ≤ y < height`), the computed cell
indices `cellX` and `cellY` used to read and update the
`gridSize × gridSize` counter matrix are both strictly less than
`gridSize`. -/
theorem C9_cell_indices_in_bounds (x y : ℚ) (w h gridSize : ℕ)
    (hx0 : 0 ≤ x) (hxw : x < (w : ℚ)) (hy0 : 0 ≤ y) (hyh : y < (h : ℚ))
    (hg : 0 < gridSize) :
    cellIndex x w gridSize < gridSize ∧ cellIndex y h gridSize < gridSize :=
  ⟨cellIndex_lt x w gridSize hx0 hxw hg, cellIndex_lt y h gridSize hy0 hyh hg⟩

theorem C9_witness :
    cellIndex (Rat.divInt 3 2) 4 2 < 2 ∧ cellIndex 0 3 2 < 2 :=
  C9_cell_indices_in_bounds (Rat.divInt 3 2) 0 4 3 2
    (by decide) (by decide) (by decide) (by decide) (by decide)

/-- C10: whenever the grid filtering of `Describe` is applied (`gridSize`
and `maxTotalKeypoints` non-zero and more detected keypoints than
`maxTotalKeypoints`), the keypoint list obtained after per-cell filtering
plus refill from the rejected keypoints has length at most
`maxTotalKeypoints` (for detected keypoints, whose coordinates lie inside
the image). -/
theorem C10_grid_filter_bound (gridSize maxTotal w h : ℕ)
    (kps : List SIFTKeyPoint) (hg : gridSize ≠ 0) (hmax : maxTotal ≠ 0)
    (hcount : maxTotal < kps.length)
    (hin : ∀ kp ∈ kps, 0 ≤ kp.x ∧ kp.x < (w : ℚ) ∧ 0 ≤ kp.y ∧ kp.y < (h : ℚ)) :
    (Describe_gridFiltering gridSize maxTotal w h kps).length ≤ maxTotal := by
  unfold Describe_gridFiltering
  rw [if_pos ⟨hg, hmax, hcount⟩]
  exact gridFilter_le gridSize maxTotal w h kps hg hin

theorem C10_witness :
    (Describe_gridFiltering 1 1 2 2 [{ x := 0, y := 0 }, { x := 1, y := 1 }]).length ≤ 1 :=
  C10_grid_filter_bound 1 1 2 2 [{ x := 0, y := 0 }, { x := 1, y := 1 }]
    (by decide) (by decide) (by decide) (by decide)
